import Mathlib

/-!
Verification of the election-flipping core of `election.py`.

The `State` class lives in `state.py`, which is not part of the sources at
hand; its accessors and mutators are modelled from the specification's data
model (§3) and are marked `Modelled from the spec:` below.  Everything else is
a direct shallow embedding of `election.py`: Python ints become `Int`,
the process-wide memo dictionary of `access_memo` becomes an explicitly
threaded association list, and the in-place mutations of `relocate_voters`
become explicit state passing over lists updated by index.
-/

/-- Modelled from the spec: one `StateRecord` (`state.py` is missing from the
sources).  `name` is the state identifier, `dem`/`rep` the two popular-vote
counts, `ec` the electoral weight. -/
structure State where
  name : String
  dem : Int
  rep : Int
  ec : Int
deriving DecidableEq, Repr

/-- Default record used only as the out-of-range fallback of `List.getD`. -/
def dState : State := ⟨"", 0, 0, 0⟩

instance : Inhabited State := ⟨dState⟩

/-- Modelled from the spec: `local_winner` is the side with strictly more
votes (ties are not modeled by the spec; like the overall tally, a tie falls
to `"rep"` because only the strict comparison selects `"dem"`). -/
def get_winner (s : State) : String :=
  if s.dem > s.rep then "dem" else "rep"

/-- Modelled from the spec: `margin` is the absolute vote difference. -/
def get_margin (s : State) : Int := |s.dem - s.rep|

/-- Modelled from the spec: the electoral weight of the state. -/
def get_ecvotes (s : State) : Int := s.ec

/-- Modelled from the spec: a donor state gives up `n` voters of its current
local winner (`votes_for_A, votes_for_B` shrink on the winning side). -/
def subtract_winning_candidate_voters (s : State) (n : Int) : State :=
  if s.dem > s.rep then { s with dem := s.dem - n } else { s with rep := s.rep - n }

/-- Modelled from the spec: a recipient state gains `n` voters registering for
its current local loser (`votes_for_loser_side` grows). -/
def add_losing_candidate_voters (s : State) (n : Int) : State :=
  if s.dem > s.rep then { s with rep := s.rep + n } else { s with dem := s.dem + n }

/-- Sum of `get_ecvotes` over a list, as the Python `sum`/`+=` loops compute it. -/
def sumEc (l : List State) : Int := (l.map get_ecvotes).sum

/-- Sum of `get_margin` over a list (what `brute_force_swing_states` accumulates
into `moved_voters`). -/
def sumMargin (l : List State) : Int := (l.map get_margin).sum

/-- Sum of `get_margin + 1` over a list (the knapsack "value" of
`move_max_voters`). -/
def sumMP (l : List State) : Int := (l.map (fun s => get_margin s + 1)).sum

/-- `election_winner` from `election.py`: tallies electoral votes of the
states locally won by `'dem'` against all the others and returns the
`(winner, loser)` pair, `('dem', 'rep')` only on a strictly larger tally. -/
def election_winner (election : List State) : String × String :=
  let t := election.foldl
    (fun (dr : Int × Int) s =>
      if get_winner s = "dem" then (dr.1 + get_ecvotes s, dr.2)
      else (dr.1, dr.2 + get_ecvotes s))
    (0, 0)
  if t.1 > t.2 then ("dem", "rep") else ("rep", "dem")

/-- `winner_states` from `election.py`: the states whose local winner is the
overall winner. -/
def winner_states (election : List State) : List State :=
  election.filter (fun s => get_winner s = (election_winner election).1)

/-- `get_binary_representation` from `election.py`: the `numDigits`-digit
binary representation of `n`, most significant digit first.  The source
builds the digit string by repeated division (`n % 2` appended in front,
then `n //= 2`) and left-pads with `'0'`; this recursion on the digit count
produces exactly that list of digits for every `n < 2 ^ numDigits` (the only
way `combinations` calls it; for larger `n` the source raises `ValueError`
where this definition drops the high bits). -/
def get_binary_representation : Nat → Nat → List Nat
  | _, 0 => []
  | n, d + 1 => get_binary_representation (n / 2) d ++ [n % 2]

/-- The subset-building loop of `combinations`: keep `L[j]` exactly when the
`j`-th digit of the mask is `1`. -/
def maskSelect (L : List State) (bits : List Nat) : List State :=
  (L.zip bits).filterMap (fun p => if p.2 = 1 then some p.1 else none)

/-- `combinations` from `election.py`: the powerset of `L`, enumerated by the
binary representation of the subset index `i ∈ [0, 2 ^ len L)`. -/
def combinations (L : List State) : List (List State) :=
  (List.range (2 ^ L.length)).map
    (fun i => maskSelect L (get_binary_representation i L.length))

/-- One step of the `brute_force_swing_states` loop: the accumulator holds
`(best_combo, min_voters)`, updated when the combination is feasible
(`flipped_votes >= ec_votes`) and strictly cheaper in summed margins. -/
def bruteStep (ec_votes : Int) (acc : List State × Option Int) (combo : List State) :
    List State × Option Int :=
  let flipped := sumEc combo
  let moved := sumMargin combo
  match acc.2 with
  | none => if flipped ≥ ec_votes then (combo, some moved) else acc
  | some mv => if flipped ≥ ec_votes ∧ moved < mv then (combo, some moved) else acc

/-- `brute_force_swing_states` from `election.py`: scan the powerset keeping
the feasible combination with the least summed `get_margin`. -/
def brute_force_swing_states (ws : List State) (ec_votes : Int) : List State :=
  ((combinations ws).foldl (bruteStep ec_votes) ([], none)).1

/-- The process-wide memo dictionary of `access_memo`, embedded as an
association list threaded explicitly (the Python default argument `memo = {}`
makes it a single mutable dictionary shared by every call in the process). -/
abbrev Memo := List ((Nat × Int) × List State)

/-- Dictionary lookup on the embedded memo (`key_tuple in memo` /
`memo[key_tuple]`); a cons at the front shadows older bindings just as a
dictionary store overwrites. -/
def memo_lookup (key : Nat × Int) : Memo → Option (List State)
  | [] => none
  | (k, v) :: rest => if k = key then some v else memo_lookup key rest

/-- `access_memo` from `election.py`: with `solution = None` it reads the memo
(returning `None` on a miss); otherwise it stores the solution and returns
`None`.  The returned pair carries the possibly updated memo. -/
def access_memo (key : Nat × Int) (solution : Option (List State)) (memo : Memo) :
    Option (List State) × Memo :=
  match memo_lookup key memo, solution with
  | some v, none => (some v, memo)
  | none, none => (none, memo)
  | _, some sol => (none, (key, sol) :: memo)

/-- `move_max_voters` from `election.py`: memoized 0/1 knapsack over the state
list, weight `get_ecvotes`, value `get_margin + 1`, keyed by
`(len(winner_states), ec_votes)`.  Control flow follows the source: cache
check first, then the empty-or-zero base case, then the too-heavy skip, else
the include/exclude comparison (`tuple(with_state) + (next_state,)` appends
the taken state at the end); the result is always stored before returning. -/
def move_max_voters : List State → Int → Memo → List State × Memo
  | ws, ec_votes, memo =>
    let sm : List State × Memo :=
      match memo_lookup (ws.length, ec_votes) memo with
      | some cached => (cached, memo)
      | none =>
        match ws with
        | [] => ([], memo)
        | next_state :: rest =>
          if ec_votes = 0 then ([], memo)
          else if get_ecvotes next_state > ec_votes then move_max_voters rest ec_votes memo
          else
            let ws_res := move_max_voters rest (ec_votes - get_ecvotes next_state) memo
            let val := sumMP ws_res.1 + (get_margin next_state + 1)
            let ns_res := move_max_voters rest ec_votes ws_res.2
            if val > sumMP ns_res.1 then (ws_res.1 ++ [next_state], ns_res.2)
            else (ns_res.1, ns_res.2)
    (sm.1, (access_memo (ws.length, ec_votes) (some sm.1) sm.2).2)

/-- `move_min_voters` from `election.py`: complement of the bounded selection
with bound `total_votes_won - ec_votes_needed` (the `except TypeError` branch
of the source is unreachable: `move_max_voters` always returns a list). -/
def move_min_voters (ws : List State) (ec_votes_needed : Int) (memo : Memo) :
    List State × Memo :=
  let total_votes_won := sumEc ws
  let max_ec_votes := total_votes_won - ec_votes_needed
  let res := move_max_voters ws max_ec_votes memo
  (ws.filter (fun s => decide (s ∉ res.1)), res.2)

/-- The memo-free recursion that `move_max_voters` implements when its memo
starts empty: same base cases, same skip, same tie-favors-exclusion
comparison. -/
def knapRec : List State → Int → List State
  | [], _ => []
  | next_state :: rest, ec_votes =>
    if ec_votes = 0 then []
    else if get_ecvotes next_state > ec_votes then knapRec rest ec_votes
    else
      let ws_sol := knapRec rest (ec_votes - get_ecvotes next_state)
      let val := sumMP ws_sol + (get_margin next_state + 1)
      let ns_sol := knapRec rest ec_votes
      if val > sumMP ns_sol then ws_sol ++ [next_state] else ns_sol

/-- The mutable state of one `relocate_voters` run: the running totals, the
transfer dictionary (cons shadows older bindings like a dict store), the
loser-held states mutated in place, and the `l_margins` bookkeeping list. -/
structure PlanSt where
  total_moved : Int
  flip_map : List ((String × String) × Int)
  losing : List State
  l_margins : List Int
deriving DecidableEq, Repr

/-- The inner donor loop of `relocate_voters` for one swing state, iterating
`for i in range(len(losing_states))`.  Protected names and margin-1 donors are
skipped; a donor with margin above the demand gives the full demand
(`voters_needed = 0`, then `break`); otherwise it gives `margin - 1`, its
margin is pinned to 1 and the demand becomes `voters_needed % moved` exactly
as in the source.  Returns the remaining demand, the mutated swing state and
the updated plan state. -/
def donor_loop (pride : List String) (cur : State) :
    List Nat → Int → PlanSt → Int × State × PlanSt
  | [], voters_needed, st => (voters_needed, cur, st)
  | i :: is, voters_needed, st =>
    let d := st.losing.getD i dState
    if d.name ∈ pride then donor_loop pride cur is voters_needed st
    else
      let m := st.l_margins.getD i 0
      if m = 1 then donor_loop pride cur is voters_needed st
      else if m > voters_needed then
        let moved := voters_needed
        let st' : PlanSt :=
          { total_moved := st.total_moved + moved
            flip_map := ((d.name, cur.name), moved) :: st.flip_map
            losing := st.losing.set i (subtract_winning_candidate_voters d moved)
            l_margins := st.l_margins.set i (m - moved) }
        (0, add_losing_candidate_voters cur moved, st')
      else
        let moved := m - 1
        let st' : PlanSt :=
          { total_moved := st.total_moved + moved
            flip_map := ((d.name, cur.name), moved) :: st.flip_map
            losing := st.losing.set i (subtract_winning_candidate_voters d moved)
            l_margins := st.l_margins.set i 1 }
        let cur' := add_losing_candidate_voters cur moved
        let needed' := voters_needed % moved
        if needed' = 0 then (0, cur', st')
        else donor_loop pride cur' is needed' st'

/-- The observable outcome of a `relocate_voters` run: `ok = false` when the
`AssertionError` path was taken (unmet demand), together with all state the
run built or mutated up to that point. -/
structure RelocOut where
  ok : Bool
  total_moved : Int
  flip_map : List ((String × String) × Int)
  ec_gain : Int
  losing : List State
  l_margins : List Int
  swing_out : List State
deriving DecidableEq, Repr

/-- The outer loop of `relocate_voters` over the given swing states: demand is
`get_margin + 1`, unmet demand aborts the run (`raise AssertionError`, with all
mutations committed so far kept), met demand adds the swing state's electoral
votes to `ec_gain`. -/
def relocate_aux (pride : List String) :
    List State → Int → List State → PlanSt → RelocOut
  | [], ec_gain, swing_out, st =>
    ⟨true, st.total_moved, st.flip_map, ec_gain, st.losing, st.l_margins, swing_out⟩
  | s :: rest, ec_gain, swing_out, st =>
    let voters_needed := get_margin s + 1
    let r := donor_loop pride s (List.range st.losing.length) voters_needed st
    if r.1 ≠ 0 then
      ⟨false, r.2.2.total_moved, r.2.2.flip_map, ec_gain, r.2.2.losing, r.2.2.l_margins,
        swing_out ++ [r.2.1]⟩
    else relocate_aux pride rest (ec_gain + get_ecvotes s) (swing_out ++ [r.2.1]) r.2.2

/-- One full `relocate_voters` run, exposing the whole final state (both the
successful and the infeasible outcome). -/
def relocate_run (election swing_states : List State) (pride : List String) : RelocOut :=
  let winners_states := winner_states election
  let losing_states := election.filter (fun s => decide (s ∉ winners_states))
  let l_margins := losing_states.map get_margin
  relocate_aux pride swing_states 0 [] ⟨0, [], losing_states, l_margins⟩

/-- `relocate_voters` from `election.py`: the returned
`(total_moved, flip_map, ec_gain)` triple, or `None` on the
`AssertionError` path. -/
def relocate_voters (election swing_states : List State)
    (states_with_pride : List String := ["AL", "AZ", "CA", "TX"]) :
    Option (Int × List ((String × String) × Int) × Int) :=
  let out := relocate_run election swing_states states_with_pride
  if out.ok then some (out.total_moved, out.flip_map, out.ec_gain) else none

/-- Voters received by state `dst` in a transfer map: the sum of the amounts
whose recipient (second key component) is `dst`. -/
def received_by (flip : List ((String × String) × Int)) (dst : String) : Int :=
  ((flip.filter (fun e => e.1.2 = dst)).map (fun e => e.2)).sum

/-! ### The powerset enumeration of `combinations` -/

theorem binrep_zero_pad (d : Nat) (i : Nat) (hi : i < 2 ^ d) :
    get_binary_representation i (d + 1) = 0 :: get_binary_representation i d := by
  induction d generalizing i with
  | zero =>
    interval_cases i
    rfl
  | succ d ih =>
    have hdiv : i / 2 < 2 ^ d := by
      apply Nat.div_lt_of_lt_mul
      calc i < 2 ^ (d + 1) := hi
        _ = 2 * 2 ^ d := by rw [Nat.pow_succ, Nat.mul_comm]
    show get_binary_representation (i / 2) (d + 1) ++ [i % 2]
        = 0 :: (get_binary_representation (i / 2) d ++ [i % 2])
    rw [ih (i / 2) hdiv]
    rfl

theorem binrep_one_pad (d : Nat) (k : Nat) (hk : k < 2 ^ d) :
    get_binary_representation (2 ^ d + k) (d + 1) = 1 :: get_binary_representation k d := by
  induction d generalizing k with
  | zero =>
    interval_cases k
    rfl
  | succ d ih =>
    have h2 : 2 ^ (d + 1) + k = 2 * 2 ^ d + k := by
      rw [Nat.pow_succ, Nat.mul_comm]
    have hdiv : (2 ^ (d + 1) + k) / 2 = 2 ^ d + k / 2 := by
      rw [h2, Nat.mul_add_div (by norm_num)]
    have hmod : (2 ^ (d + 1) + k) % 2 = k % 2 := by
      have h3 : 2 ^ (d + 1) + k = k + 2 ^ d * 2 := by
        rw [Nat.pow_succ]; omega
      rw [h3, Nat.add_mul_mod_self_right]
    have hk2 : k / 2 < 2 ^ d := by
      apply Nat.div_lt_of_lt_mul
      calc k < 2 ^ (d + 1) := hk
        _ = 2 * 2 ^ d := by rw [Nat.pow_succ, Nat.mul_comm]
    show get_binary_representation ((2 ^ (d + 1) + k) / 2) (d + 1) ++ [(2 ^ (d + 1) + k) % 2]
        = 1 :: (get_binary_representation (k / 2) d ++ [k % 2])
    rw [hdiv, hmod, ih (k / 2) hk2]
    rfl

theorem maskSelect_cons_zero (x : State) (xs : List State) (bits : List Nat) :
    maskSelect (x :: xs) (0 :: bits) = maskSelect xs bits := by
  simp [maskSelect]

theorem maskSelect_cons_one (x : State) (xs : List State) (bits : List Nat) :
    maskSelect (x :: xs) (1 :: bits) = x :: maskSelect xs bits := by
  simp [maskSelect]

theorem combinations_nil : combinations [] = [[]] := by decide

theorem combinations_cons (x : State) (xs : List State) :
    combinations (x :: xs) = combinations xs ++ (combinations xs).map (x :: ·) := by
  unfold combinations
  have hlen : (x :: xs).length = xs.length + 1 := rfl
  have hpow : 2 ^ (x :: xs).length = 2 ^ xs.length + 2 ^ xs.length := by
    rw [hlen]; ring
  rw [hpow, List.range_add, List.map_append, List.map_map, List.map_map]
  congr 1
  · apply List.map_congr_left
    intro i hi
    have hi2 : i < 2 ^ xs.length := List.mem_range.mp hi
    rw [hlen, binrep_zero_pad xs.length i hi2, maskSelect_cons_zero]
  · apply List.map_congr_left
    intro k hk
    have hk2 : k < 2 ^ xs.length := List.mem_range.mp hk
    simp only [Function.comp_apply]
    rw [hlen, binrep_one_pad xs.length k hk2, maskSelect_cons_one]

theorem mem_combinations {c : List State} {L : List State} :
    c ∈ combinations L ↔ List.Sublist c L := by
  induction L generalizing c with
  | nil =>
    rw [combinations_nil]
    simp [List.sublist_nil]
  | cons x xs ih =>
    rw [combinations_cons, List.mem_append, List.sublist_cons_iff]
    constructor
    · rintro (h | h)
      · exact Or.inl (ih.mp h)
      · rcases List.mem_map.mp h with ⟨t, ht, rfl⟩
        exact Or.inr ⟨t, rfl, ih.mp ht⟩
    · rintro (h | ⟨t, rfl, ht⟩)
      · exact Or.inl (ih.mpr h)
      · exact Or.inr (List.mem_map.mpr ⟨t, ih.mpr ht, rfl⟩)

/-! ### The minimizing fold of `brute_force_swing_states` -/

theorem bruteStep_none (t : Int) (b c : List State) :
    bruteStep t (b, none) c = if sumEc c ≥ t then (c, some (sumMargin c)) else (b, none) := rfl

theorem bruteStep_some (t : Int) (b c : List State) (mv : Int) :
    bruteStep t (b, some mv) c
      = if sumEc c ≥ t ∧ sumMargin c < mv then (c, some (sumMargin c)) else (b, some mv) := rfl

theorem bruteStep_sound (t : Int) (acc : List State × Option Int) (c : List State)
    (hinv : ∀ mv, acc.2 = some mv → mv = sumMargin acc.1 ∧ t ≤ sumEc acc.1) :
    ∀ mv, (bruteStep t acc c).2 = some mv →
      mv = sumMargin (bruteStep t acc c).1 ∧ t ≤ sumEc (bruteStep t acc c).1 := by
  obtain ⟨b, m⟩ := acc
  cases m with
  | none =>
    rw [bruteStep_none]
    by_cases hf : sumEc c ≥ t
    · rw [if_pos hf]
      intro mv hmv
      cases hmv
      exact ⟨rfl, hf⟩
    · rw [if_neg hf]
      intro mv hmv
      cases hmv
  | some mv₀ =>
    rw [bruteStep_some]
    by_cases hf : sumEc c ≥ t ∧ sumMargin c < mv₀
    · rw [if_pos hf]
      intro mv hmv
      cases hmv
      exact ⟨rfl, hf.1⟩
    · rw [if_neg hf]
      intro mv hmv
      cases hmv
      exact hinv mv₀ rfl

theorem bruteStep_fst (t : Int) (acc : List State × Option Int) (c : List State) :
    (bruteStep t acc c).1 = acc.1 ∨ (bruteStep t acc c).1 = c := by
  obtain ⟨b, m⟩ := acc
  cases m with
  | none =>
    rw [bruteStep_none]
    by_cases hf : sumEc c ≥ t
    · rw [if_pos hf]; exact Or.inr rfl
    · rw [if_neg hf]; exact Or.inl rfl
  | some mv₀ =>
    rw [bruteStep_some]
    by_cases hf : sumEc c ≥ t ∧ sumMargin c < mv₀
    · rw [if_pos hf]; exact Or.inr rfl
    · rw [if_neg hf]; exact Or.inl rfl

theorem bruteStep_mono (t : Int) (acc : List State × Option Int) (c : List State) :
    ∀ mv, acc.2 = some mv → ∃ mv₁, (bruteStep t acc c).2 = some mv₁ ∧ mv₁ ≤ mv := by
  obtain ⟨b, m⟩ := acc
  cases m with
  | none =>
    intro mv hmv
    cases hmv
  | some mv₀ =>
    intro mv hmv
    cases hmv
    rw [bruteStep_some]
    by_cases hf : sumEc c ≥ t ∧ sumMargin c < mv₀
    · rw [if_pos hf]
      exact ⟨sumMargin c, rfl, le_of_lt hf.2⟩
    · rw [if_neg hf]
      exact ⟨mv₀, rfl, le_refl mv₀⟩

theorem bruteStep_feas (t : Int) (acc : List State × Option Int) (c : List State)
    (hfeas : t ≤ sumEc c) :
    ∃ mv₁, (bruteStep t acc c).2 = some mv₁ ∧ mv₁ ≤ sumMargin c := by
  obtain ⟨b, m⟩ := acc
  cases m with
  | none =>
    rw [bruteStep_none, if_pos hfeas]
    exact ⟨sumMargin c, rfl, le_refl _⟩
  | some mv₀ =>
    rw [bruteStep_some]
    by_cases hlt : sumMargin c < mv₀
    · rw [if_pos (And.intro hfeas hlt)]
      exact ⟨sumMargin c, rfl, le_refl _⟩
    · rw [if_neg (fun h => hlt h.2)]
      exact ⟨mv₀, rfl, le_of_not_lt hlt⟩

theorem bruteStep_fold (t : Int) :
    ∀ (cs : List (List State)) (acc : List State × Option Int),
      (∀ mv, acc.2 = some mv → mv = sumMargin acc.1 ∧ t ≤ sumEc acc.1) →
      (∀ mv, (cs.foldl (bruteStep t) acc).2 = some mv →
          mv = sumMargin (cs.foldl (bruteStep t) acc).1
            ∧ t ≤ sumEc (cs.foldl (bruteStep t) acc).1) ∧
        ((cs.foldl (bruteStep t) acc).1 = acc.1 ∨ (cs.foldl (bruteStep t) acc).1 ∈ cs) ∧
        (∀ mv, acc.2 = some mv →
          ∃ mv₂, (cs.foldl (bruteStep t) acc).2 = some mv₂ ∧ mv₂ ≤ mv) ∧
        (∀ c ∈ cs, t ≤ sumEc c →
          ∃ mv₂, (cs.foldl (bruteStep t) acc).2 = some mv₂ ∧ mv₂ ≤ sumMargin c) := by
  intro cs
  induction cs with
  | nil =>
    intro acc hinv
    refine ⟨hinv, Or.inl rfl, ?_, ?_⟩
    · intro mv hmv; exact ⟨mv, hmv, le_refl mv⟩
    · intro c hc; exact absurd hc (List.not_mem_nil c)
  | cons c₀ cs ih =>
    intro acc hinv
    have this := ih (bruteStep t acc c₀) (bruteStep_sound t acc c₀ hinv)
    simp only [List.foldl_cons]
    refine ⟨this.1, ?_, ?_, ?_⟩
    · rcases this.2.1 with h | h
      · rw [h]
        rcases bruteStep_fst t acc c₀ with h₂ | h₂
        · exact Or.inl h₂
        · rw [h₂]
          exact Or.inr (List.mem_cons_self c₀ cs)
      · exact Or.inr (List.mem_cons_of_mem c₀ h)
    · intro mv hmv
      rcases bruteStep_mono t acc c₀ mv hmv with ⟨mv₁, hmv₁, hle₁⟩
      rcases this.2.2.1 mv₁ hmv₁ with ⟨mv₂, hmv₂, hle₂⟩
      exact ⟨mv₂, hmv₂, le_trans hle₂ hle₁⟩
    · intro c hc hfeas
      rcases List.mem_cons.mp hc with rfl | hc
      · rcases bruteStep_feas t acc c hfeas with ⟨mv₁, hmv₁, hle₁⟩
        rcases this.2.2.1 mv₁ hmv₁ with ⟨mv₂, hmv₂, hle₂⟩
        exact ⟨mv₂, hmv₂, le_trans hle₂ hle₁⟩
      · exact this.2.2.2 c hc hfeas

theorem brute_force_minimizes (ws : List State) (t : Int) (c : List State)
    (hsub : List.Sublist c ws) (hfeas : t ≤ sumEc c) :
    List.Sublist (brute_force_swing_states ws t) ws
      ∧ t ≤ sumEc (brute_force_swing_states ws t)
      ∧ sumMargin (brute_force_swing_states ws t) ≤ sumMargin c := by
  have hmem : c ∈ combinations ws := mem_combinations.mpr hsub
  have hfold := bruteStep_fold t (combinations ws) ([], none) (by intro mv h; cases h)
  rcases hfold.2.2.2 c hmem hfeas with ⟨mv₂, hmv₂, hle₂⟩
  have hres := hfold.1 mv₂ hmv₂
  have hself : List.Sublist (brute_force_swing_states ws t) ws := by
    rcases hfold.2.1 with h | h
    · rw [brute_force_swing_states, h]
      exact List.nil_sublist ws
    · exact mem_combinations.mp h
  refine ⟨hself, ?_, ?_⟩
  · exact hres.2
  · rw [brute_force_swing_states, ← hres.1]
    exact hle₂

/-! ### Sum helpers -/

theorem sumEc_cons (s : State) (l : List State) :
    sumEc (s :: l) = get_ecvotes s + sumEc l := by
  simp [sumEc]

theorem sumMP_cons (s : State) (l : List State) :
    sumMP (s :: l) = (get_margin s + 1) + sumMP l := by
  simp [sumMP]

theorem sumEc_append (l₁ l₂ : List State) : sumEc (l₁ ++ l₂) = sumEc l₁ + sumEc l₂ := by
  simp [sumEc]

theorem sumMP_append (l₁ l₂ : List State) : sumMP (l₁ ++ l₂) = sumMP l₁ + sumMP l₂ := by
  simp [sumMP]

theorem sumEc_perm {l₁ l₂ : List State} (h : l₁.Perm l₂) : sumEc l₁ = sumEc l₂ :=
  List.Perm.sum_eq (h.map get_ecvotes)

theorem sumMP_perm {l₁ l₂ : List State} (h : l₁.Perm l₂) : sumMP l₁ = sumMP l₂ :=
  List.Perm.sum_eq (h.map (fun s => get_margin s + 1))

theorem sumEc_nonneg {l : List State} (h : ∀ s ∈ l, 0 ≤ get_ecvotes s) : 0 ≤ sumEc l := by
  induction l with
  | nil => simp [sumEc]
  | cons s rest ih =>
    rw [sumEc_cons]
    have h₁ := h s (List.mem_cons_self s rest)
    have h₂ := ih (fun x hx => h x (List.mem_cons_of_mem s hx))
    omega

theorem sumEc_pos {l : List State} (h : ∀ s ∈ l, 0 < get_ecvotes s) (hne : l ≠ []) :
    0 < sumEc l := by
  cases l with
  | nil => exact absurd rfl hne
  | cons s rest =>
    rw [sumEc_cons]
    have h₁ := h s (List.mem_cons_self s rest)
    have h₂ : 0 ≤ sumEc rest :=
      sumEc_nonneg (fun x hx => le_of_lt (h x (List.mem_cons_of_mem s hx)))
    omega

/-! ### Correctness of the memo-free knapsack recursion -/

theorem knapRec_subperm : ∀ (ws : List State) (b : Int), List.Subperm (knapRec ws b) ws := by
  intro ws
  induction ws with
  | nil => intro b; exact List.nil_subperm
  | cons s rest ih =>
    intro b
    simp only [knapRec]
    by_cases hb : b = 0
    · rw [if_pos hb]; exact List.nil_subperm
    · rw [if_neg hb]
      by_cases hec : get_ecvotes s > b
      · rw [if_pos hec]; exact (ih b).cons_right s
      · rw [if_neg hec]
        by_cases hval : sumMP (knapRec rest (b - get_ecvotes s)) + (get_margin s + 1)
            > sumMP (knapRec rest b)
        · rw [if_pos hval]
          have h₁ : List.Subperm (s :: knapRec rest (b - get_ecvotes s)) (s :: rest) :=
            (List.subperm_cons s).mpr (ih (b - get_ecvotes s))
          exact (List.perm_append_singleton s (knapRec rest (b - get_ecvotes s))).subperm_right.mpr h₁
        · rw [if_neg hval]; exact (ih b).cons_right s

theorem knapRec_weight : ∀ (ws : List State) (b : Int), 0 ≤ b → sumEc (knapRec ws b) ≤ b := by
  intro ws
  induction ws with
  | nil => intro b hb; simp [knapRec, sumEc]; exact hb
  | cons s rest ih =>
    intro b hb
    simp only [knapRec]
    by_cases hb0 : b = 0
    · rw [if_pos hb0]
      simp [sumEc]
      omega
    · rw [if_neg hb0]
      by_cases hec : get_ecvotes s > b
      · rw [if_pos hec]; exact ih b hb
      · rw [if_neg hec]
        by_cases hval : sumMP (knapRec rest (b - get_ecvotes s)) + (get_margin s + 1)
            > sumMP (knapRec rest b)
        · rw [if_pos hval]
          rw [sumEc_append]
          have h₁ : sumEc (knapRec rest (b - get_ecvotes s)) ≤ b - get_ecvotes s :=
            ih (b - get_ecvotes s) (by omega)
          have h₂ : sumEc [s] = get_ecvotes s := by simp [sumEc]
          omega
        · rw [if_neg hval]; exact ih b hb

theorem subperm_cons_cases {c : List State} {s : State} {rest : List State}
    (h : List.Subperm c (s :: rest)) :
    List.Subperm c rest ∨ ∃ c', c.Perm (s :: c') ∧ List.Subperm c' rest := by
  rcases h with ⟨w, hw, hsub⟩
  rcases List.sublist_cons_iff.mp hsub with h₁ | ⟨w', rfl, hw'⟩
  · exact Or.inl ⟨w, hw, h₁⟩
  · exact Or.inr ⟨w', hw.symm, hw'.subperm⟩

theorem knapRec_optimal :
    ∀ (ws : List State) (b : Int), 0 ≤ b → (∀ s ∈ ws, 0 < get_ecvotes s) →
      ∀ c, List.Subperm c ws → sumEc c ≤ b → sumMP c ≤ sumMP (knapRec ws b) := by
  intro ws
  induction ws with
  | nil =>
    intro b hb hpos c hc hcb
    have hlen : c.length ≤ 0 := hc.length_le
    have hnil : c = [] := List.eq_nil_of_length_eq_zero (Nat.le_zero.mp hlen)
    subst hnil
    simp [knapRec, sumMP]
  | cons s rest ih =>
    intro b hb hpos c hc hcb
    have hposr : ∀ x ∈ rest, 0 < get_ecvotes x :=
      fun x hx => hpos x (List.mem_cons_of_mem s hx)
    simp only [knapRec]
    by_cases hb0 : b = 0
    · subst hb0
      rw [if_pos rfl]
      cases c with
      | nil => simp [sumMP]
      | cons x cs =>
        exfalso
        have hcpos : 0 < sumEc (x :: cs) :=
          sumEc_pos (fun u hu => hpos u (hc.subset hu)) (by simp)
        omega
    · rw [if_neg hb0]
      by_cases hec : get_ecvotes s > b
      · rw [if_pos hec]
        rcases subperm_cons_cases hc with h₁ | ⟨c', hcp, hc'⟩
        · exact ih b hb hposr c h₁ hcb
        · exfalso
          have h₂ : sumEc c = get_ecvotes s + sumEc c' := by
            rw [sumEc_perm hcp, sumEc_cons]
          have h₃ : 0 ≤ sumEc c' :=
            sumEc_nonneg (fun u hu => le_of_lt (hposr u (hc'.subset hu)))
          omega
      · rw [if_neg hec]
        by_cases hval : sumMP (knapRec rest (b - get_ecvotes s)) + (get_margin s + 1)
            > sumMP (knapRec rest b)
        · rw [if_pos hval]
          rw [sumMP_append]
          have hsing : sumMP [s] = get_margin s + 1 := by simp [sumMP]
          rcases subperm_cons_cases hc with h₁ | ⟨c', hcp, hc'⟩
          · have h₂ := ih b hb hposr c h₁ hcb
            rw [hsing]
            omega
          · have h₂ : sumEc c' ≤ b - get_ecvotes s := by
              have h₅ := sumEc_perm hcp
              rw [sumEc_cons] at h₅
              omega
            have h₃ := ih (b - get_ecvotes s) (by omega) hposr c' hc' h₂
            have h₄ : sumMP c = (get_margin s + 1) + sumMP c' := by
              rw [sumMP_perm hcp, sumMP_cons]
            rw [hsing]
            omega
        · rw [if_neg hval]
          rcases subperm_cons_cases hc with h₁ | ⟨c', hcp, hc'⟩
          · exact ih b hb hposr c h₁ hcb
          · have h₂ : sumEc c' ≤ b - get_ecvotes s := by
              have h₅ := sumEc_perm hcp
              rw [sumEc_cons] at h₅
              omega
            have h₃ := ih (b - get_ecvotes s) (by omega) hposr c' hc' h₂
            have h₄ : sumMP c = (get_margin s + 1) + sumMP c' := by
              rw [sumMP_perm hcp, sumMP_cons]
            omega

/-! ### Soundness of the memo within a single `move_max_voters` instance -/

theorem access_memo_store (key : Nat × Int) (sol : List State) (memo : Memo) :
    access_memo key (some sol) memo = (none, (key, sol) :: memo) := by
  unfold access_memo
  cases memo_lookup key memo <;> rfl

/-- A memo that is consistent with one ambient instance `ws₀`: every binding
`(k, b) ↦ v` stores the memo-free solution for the length-`k` suffix of
`ws₀` at bound `b`. -/
def memoInv (ws₀ : List State) (memo : Memo) : Prop :=
  ∀ k b v, memo_lookup (k, b) memo = some v →
    k ≤ ws₀.length ∧ v = knapRec (ws₀.drop (ws₀.length - k)) b

theorem memoInv_nil (ws₀ : List State) : memoInv ws₀ [] := by
  intro k b v hl
  cases hl

theorem drop_of_suffix {pre ws ws₀ : List State} (h : pre ++ ws = ws₀) :
    ws₀.drop (ws₀.length - ws.length) = ws := by
  subst h
  rw [List.length_append]
  have h₂ : pre.length + ws.length - ws.length = pre.length := by omega
  rw [h₂, List.drop_left]

theorem memoInv_store {ws₀ : List State} {memo : Memo} {k : Nat} {b : Int} {v : List State}
    (hinv : memoInv ws₀ memo) (hk : k ≤ ws₀.length)
    (hv : v = knapRec (ws₀.drop (ws₀.length - k)) b) :
    memoInv ws₀ (((k, b), v) :: memo) := by
  intro k' b' v' hl
  simp only [memo_lookup] at hl
  by_cases he : (k, b) = ((k', b') : Nat × Int)
  · rw [if_pos he] at hl
    cases hl
    obtain ⟨he₁, he₂⟩ := Prod.mk.injEq .. ▸ he
    subst he₁
    subst he₂
    exact ⟨hk, hv⟩
  · rw [if_neg he] at hl
    exact hinv k' b' v' hl

theorem move_max_eq_knapRec (ws₀ : List State) :
    ∀ (ws : List State) (b : Int) (memo : Memo),
      (∃ pre, pre ++ ws = ws₀) → memoInv ws₀ memo →
      (move_max_voters ws b memo).1 = knapRec ws b
        ∧ memoInv ws₀ (move_max_voters ws b memo).2 := by
  intro ws
  induction ws with
  | nil =>
    intro b memo hsuf hinv
    rcases hsuf with ⟨pre, hpre⟩
    have hdrop : ws₀.drop (ws₀.length - List.length ([] : List State)) = [] :=
      drop_of_suffix hpre
    rw [move_max_voters]
    cases hl : memo_lookup (List.length ([] : List State), b) memo with
    | some v =>
      have hv := hinv _ _ _ hl
      have hv2 : v = knapRec [] b := by
        have h := hv.2
        rw [hdrop] at h
        exact h
      dsimp only
      rw [access_memo_store]
      exact ⟨hv2.symm ▸ rfl, memoInv_store hinv hv.1 hv.2⟩
    | none =>
      dsimp only
      rw [access_memo_store]
      refine ⟨rfl, memoInv_store hinv (Nat.zero_le _) ?_⟩
      rw [hdrop]
      simp [knapRec]
  | cons s rest ih =>
    intro b memo hsuf hinv
    rcases hsuf with ⟨pre, hpre⟩
    have hsufr : ∃ pre₂, pre₂ ++ rest = ws₀ :=
      ⟨pre ++ [s], by rw [List.append_assoc]; exact hpre⟩
    have hdrop : ws₀.drop (ws₀.length - (s :: rest).length) = s :: rest :=
      drop_of_suffix hpre
    have hklen : (s :: rest).length ≤ ws₀.length := by
      rw [← hpre, List.length_append]
      omega
    rw [move_max_voters]
    cases hl : memo_lookup ((s :: rest).length, b) memo with
    | some v =>
      have hv := hinv _ _ _ hl
      have hv2 : v = knapRec (s :: rest) b := by
        have h := hv.2
        rw [hdrop] at h
        exact h
      dsimp only
      rw [access_memo_store]
      exact ⟨hv2, memoInv_store hinv hv.1 hv.2⟩
    | none =>
      dsimp only
      by_cases hb : b = 0
      · rw [if_pos hb]
        rw [access_memo_store]
        have hknap : knapRec (s :: rest) b = [] := by
          rw [hb]
          simp [knapRec]
        refine ⟨hknap.symm, memoInv_store hinv hklen ?_⟩
        rw [hdrop, hknap]
      · rw [if_neg hb]
        by_cases hec : get_ecvotes s > b
        · rw [if_pos hec]
          have hr := ih b memo hsufr hinv
          rw [access_memo_store]
          have hknap : knapRec (s :: rest) b = knapRec rest b := by
            simp only [knapRec]
            rw [if_neg hb, if_pos hec]
          refine ⟨by rw [hr.1, hknap], memoInv_store hr.2 hklen ?_⟩
          rw [hdrop, hknap, ← hr.1]
        · rw [if_neg hec]
          have hr₁ := ih (b - get_ecvotes s) memo hsufr hinv
          have hr₂ := ih b (move_max_voters rest (b - get_ecvotes s) memo).2 hsufr hr₁.2
          rw [hr₁.1, hr₂.1]
          by_cases hval : sumMP (knapRec rest (b - get_ecvotes s)) + (get_margin s + 1)
              > sumMP (knapRec rest b)
          · rw [if_pos hval]
            dsimp only
            rw [access_memo_store]
            have hknap : knapRec (s :: rest) b
                = knapRec rest (b - get_ecvotes s) ++ [s] := by
              simp only [knapRec]
              rw [if_neg hb, if_neg hec, if_pos hval]
            refine ⟨hknap.symm, memoInv_store hr₂.2 hklen ?_⟩
            rw [hdrop, hknap]
          · rw [if_neg hval]
            dsimp only
            rw [access_memo_store]
            have hknap : knapRec (s :: rest) b = knapRec rest b := by
              simp only [knapRec]
              rw [if_neg hb, if_neg hec, if_neg hval]
            refine ⟨hknap.symm, memoInv_store hr₂.2 hklen ?_⟩
            rw [hdrop, hknap]

theorem move_max_empty_memo (ws : List State) (b : Int) :
    (move_max_voters ws b []).1 = knapRec ws b :=
  (move_max_eq_knapRec ws ws b [] ⟨[], rfl⟩ (memoInv_nil ws)).1

/-! ### `move_min_voters` as complement of the bounded selection -/

theorem knapRec_neg :
    ∀ (ws : List State) (b : Int), b < 0 → (∀ s ∈ ws, 0 ≤ get_ecvotes s) →
      knapRec ws b = [] := by
  intro ws
  induction ws with
  | nil => intro b _ _; rfl
  | cons s rest ih =>
    intro b hb hpos
    have hb0 : b ≠ 0 := by omega
    have hec : get_ecvotes s > b := by
      have := hpos s (List.mem_cons_self s rest)
      omega
    simp only [knapRec]
    rw [if_neg hb0, if_pos hec]
    exact ih b hb (fun x hx => hpos x (List.mem_cons_of_mem s hx))

theorem perm_split (ws c : List State) (hnd : ws.Nodup) (hc : List.Subperm c ws) :
    ws.Perm (c ++ ws.filter (fun s => decide (s ∉ c))) := by
  have h₁ := List.filter_append_perm (fun s => decide (s ∈ c)) ws
  have h₂ : ws.filter (fun s => !decide (s ∈ c)) = ws.filter (fun s => decide (s ∉ c)) := by
    apply List.filter_congr
    intro a _
    simp
  have hcnd : c.Nodup := by
    rcases hc with ⟨w, hw, hsub⟩
    exact hw.nodup (List.Nodup.sublist hsub hnd)
  have h₃ : (ws.filter (fun s => decide (s ∈ c))).Perm c := by
    apply (List.perm_ext_iff_of_nodup (hnd.filter _) hcnd).mpr
    intro a
    simp only [List.mem_filter, decide_eq_true_iff]
    exact ⟨fun h => h.2, fun h => ⟨hc.subset h, h⟩⟩
  have h₄ : ws.Perm
      (ws.filter (fun s => decide (s ∈ c)) ++ ws.filter (fun s => decide (s ∉ c))) := by
    rw [← h₂]
    exact h₁.symm
  exact h₄.trans (h₃.append_right _)

theorem move_min_result (ws : List State) (needed : Int) (memo : Memo) :
    (move_min_voters ws needed memo).1
      = ws.filter (fun s => decide (s ∉ (move_max_voters ws (sumEc ws - needed) memo).1)) := rfl

theorem move_min_optimal (ws : List State) (needed : Int) (hnd : ws.Nodup)
    (hpos : ∀ s ∈ ws, 0 < get_ecvotes s) (hle : needed ≤ sumEc ws) :
    needed ≤ sumEc ((move_min_voters ws needed []).1)
      ∧ ∀ c, List.Subperm c ws → needed ≤ sumEc c →
          sumMP ((move_min_voters ws needed []).1) ≤ sumMP c := by
  have hb : 0 ≤ sumEc ws - needed := by omega
  have hswing : (move_min_voters ws needed []).1
      = ws.filter (fun s => decide (s ∉ knapRec ws (sumEc ws - needed))) := by
    rw [move_min_result, move_max_empty_memo]
  have hksub := knapRec_subperm ws (sumEc ws - needed)
  have hkw := knapRec_weight ws (sumEc ws - needed) hb
  have hsplit := perm_split ws (knapRec ws (sumEc ws - needed)) hnd hksub
  have hEc := sumEc_perm hsplit
  rw [sumEc_append] at hEc
  have hMP := sumMP_perm hsplit
  rw [sumMP_append] at hMP
  constructor
  · rw [hswing]
    omega
  · intro c hcsub hcfeas
    have hsplitc := perm_split ws c hnd hcsub
    have hEcC := sumEc_perm hsplitc
    rw [sumEc_append] at hEcC
    have hMPC := sumMP_perm hsplitc
    rw [sumMP_append] at hMPC
    have hcomplsub : List.Subperm (ws.filter (fun s => decide (s ∉ c))) ws :=
      (List.filter_sublist ws).subperm
    have hcomplb : sumEc (ws.filter (fun s => decide (s ∉ c))) ≤ sumEc ws - needed := by
      omega
    have hopt := knapRec_optimal ws (sumEc ws - needed) hb hpos
      (ws.filter (fun s => decide (s ∉ c))) hcomplsub hcomplb
    rw [hswing]
    omega

/-! ### Invariants of the voter reallocation run -/

theorem getD_set_ne {α : Type} {l : List α} {i j : Nat} (h : i ≠ j) (v d : α) :
    (l.set i v).getD j d = l.getD j d := by
  rw [List.getD_eq_getElem?_getD, List.getD_eq_getElem?_getD, List.getElem?_set_ne h]

theorem donor_loop_margins (pride : List String) :
    ∀ (idxs : List Nat) (cur : State) (needed : Int) (st : PlanSt),
      (∀ m ∈ st.l_margins, 1 ≤ m) → 1 ≤ needed →
      ∀ m ∈ (donor_loop pride cur idxs needed st).2.2.l_margins, 1 ≤ m := by
  intro idxs
  induction idxs with
  | nil => intro cur needed st hinv _; exact hinv
  | cons i is ih =>
    intro cur needed st hinv hneed
    simp only [donor_loop]
    by_cases hp : (st.losing.getD i dState).name ∈ pride
    · rw [if_pos hp]
      exact ih cur needed st hinv hneed
    · rw [if_neg hp]
      by_cases hm1 : st.l_margins.getD i 0 = 1
      · rw [if_pos hm1]
        exact ih cur needed st hinv hneed
      · rw [if_neg hm1]
        by_cases hgt : st.l_margins.getD i 0 > needed
        · rw [if_pos hgt]
          intro m hm
          rcases List.mem_or_eq_of_mem_set hm with h | h
          · exact hinv m h
          · omega
        · rw [if_neg hgt]
          have hset : ∀ m ∈ st.l_margins.set i 1, 1 ≤ m := by
            intro m hm
            rcases List.mem_or_eq_of_mem_set hm with h | h
            · exact hinv m h
            · omega
          by_cases hz : needed % (st.l_margins.getD i 0 - 1) = 0
          · rw [if_pos hz]
            exact hset
          · rw [if_neg hz]
            apply ih
            · exact hset
            · have hne : st.l_margins.getD i 0 - 1 ≠ 0 := by omega
              have hnn := Int.emod_nonneg needed hne
              omega

theorem donor_loop_skip (pride : List String) (cur : State) (i : Nat) (is : List Nat)
    (needed : Int) (st : PlanSt) (h : st.l_margins.getD i 0 = 1) :
    donor_loop pride cur (i :: is) needed st = donor_loop pride cur is needed st := by
  simp only [donor_loop]
  by_cases hp : (st.losing.getD i dState).name ∈ pride
  · rw [if_pos hp]
  · rw [if_neg hp, if_pos h]

theorem relocate_aux_margins (pride : List String) :
    ∀ (swing : List State) (ec_gain : Int) (sw : List State) (st : PlanSt),
      (∀ m ∈ st.l_margins, 1 ≤ m) →
      ∀ m ∈ (relocate_aux pride swing ec_gain sw st).l_margins, 1 ≤ m := by
  intro swing
  induction swing with
  | nil => intro ec_gain sw st hinv; exact hinv
  | cons s rest ih =>
    intro ec_gain sw st hinv
    simp only [relocate_aux]
    have hneed : 1 ≤ get_margin s + 1 := by
      have := abs_nonneg (s.dem - s.rep)
      simp only [get_margin]
      omega
    have hd := donor_loop_margins pride (List.range st.losing.length) s
      (get_margin s + 1) st hinv hneed
    by_cases hr :
        (donor_loop pride s (List.range st.losing.length) (get_margin s + 1) st).1 ≠ 0
    · rw [if_pos hr]
      exact hd
    · rw [if_neg hr]
      exact ih _ _ _ hd

theorem donor_loop_sources (pride : List String) :
    ∀ (idxs : List Nat) (cur : State) (needed : Int) (st : PlanSt),
      (∀ e ∈ st.flip_map, e.1.1 ∉ pride) →
      ∀ e ∈ (donor_loop pride cur idxs needed st).2.2.flip_map, e.1.1 ∉ pride := by
  intro idxs
  induction idxs with
  | nil => intro cur needed st hinv; exact hinv
  | cons i is ih =>
    intro cur needed st hinv
    simp only [donor_loop]
    by_cases hp : (st.losing.getD i dState).name ∈ pride
    · rw [if_pos hp]
      exact ih cur needed st hinv
    · rw [if_neg hp]
      by_cases hm1 : st.l_margins.getD i 0 = 1
      · rw [if_pos hm1]
        exact ih cur needed st hinv
      · rw [if_neg hm1]
        have hcons : ∀ (amt : Int) (cs : List ((String × String) × Int)),
            (∀ e ∈ cs, e.1.1 ∉ pride) →
            ∀ e ∈ (((st.losing.getD i dState).name, cur.name), amt) :: cs, e.1.1 ∉ pride := by
          intro amt cs hcs e he
          rcases List.mem_cons.mp he with rfl | he
          · exact hp
          · exact hcs e he
        by_cases hgt : st.l_margins.getD i 0 > needed
        · rw [if_pos hgt]
          exact hcons _ _ hinv
        · rw [if_neg hgt]
          by_cases hz : needed % (st.l_margins.getD i 0 - 1) = 0
          · rw [if_pos hz]
            exact hcons _ _ hinv
          · rw [if_neg hz]
            exact ih _ _ _ (hcons _ _ hinv)

theorem donor_loop_protected (pride : List String) :
    ∀ (idxs : List Nat) (cur : State) (needed : Int) (st : PlanSt) (j : Nat),
      (st.losing.getD j dState).name ∈ pride →
      (donor_loop pride cur idxs needed st).2.2.losing.getD j dState
        = st.losing.getD j dState := by
  intro idxs
  induction idxs with
  | nil => intro cur needed st j _; rfl
  | cons i is ih =>
    intro cur needed st j hj
    simp only [donor_loop]
    by_cases hp : (st.losing.getD i dState).name ∈ pride
    · rw [if_pos hp]
      exact ih cur needed st j hj
    · rw [if_neg hp]
      have hij : i ≠ j := by
        intro h
        subst h
        exact hp hj
      by_cases hm1 : st.l_margins.getD i 0 = 1
      · rw [if_pos hm1]
        exact ih cur needed st j hj
      · rw [if_neg hm1]
        by_cases hgt : st.l_margins.getD i 0 > needed
        · rw [if_pos hgt]
          exact getD_set_ne hij _ _
        · rw [if_neg hgt]
          by_cases hz : needed % (st.l_margins.getD i 0 - 1) = 0
          · rw [if_pos hz]
            exact getD_set_ne hij _ _
          · rw [if_neg hz]
            have hstep := getD_set_ne (l := st.losing) hij
              (subtract_winning_candidate_voters (st.losing.getD i dState)
                (st.l_margins.getD i 0 - 1)) dState
            have hj2 := hj
            rw [← hstep] at hj2
            rw [ih _ _ _ j hj2, hstep]

theorem relocate_aux_sources (pride : List String) :
    ∀ (swing : List State) (ec_gain : Int) (sw : List State) (st : PlanSt),
      (∀ e ∈ st.flip_map, e.1.1 ∉ pride) →
      ∀ e ∈ (relocate_aux pride swing ec_gain sw st).flip_map, e.1.1 ∉ pride := by
  intro swing
  induction swing with
  | nil => intro ec_gain sw st hinv; exact hinv
  | cons s rest ih =>
    intro ec_gain sw st hinv
    simp only [relocate_aux]
    have hd := donor_loop_sources pride (List.range st.losing.length) s
      (get_margin s + 1) st hinv
    by_cases hr :
        (donor_loop pride s (List.range st.losing.length) (get_margin s + 1) st).1 ≠ 0
    · rw [if_pos hr]
      exact hd
    · rw [if_neg hr]
      exact ih _ _ _ hd

theorem relocate_aux_protected (pride : List String) :
    ∀ (swing : List State) (ec_gain : Int) (sw : List State) (st : PlanSt) (j : Nat),
      (st.losing.getD j dState).name ∈ pride →
      (relocate_aux pride swing ec_gain sw st).losing.getD j dState
        = st.losing.getD j dState := by
  intro swing
  induction swing with
  | nil => intro ec_gain sw st j _; rfl
  | cons s rest ih =>
    intro ec_gain sw st j hj
    simp only [relocate_aux]
    have hd := donor_loop_protected pride (List.range st.losing.length) s
      (get_margin s + 1) st j hj
    by_cases hr :
        (donor_loop pride s (List.range st.losing.length) (get_margin s + 1) st).1 ≠ 0
    · rw [if_pos hr]
      exact hd
    · rw [if_neg hr]
      have hj2 := hj
      rw [← hd] at hj2
      rw [ih _ _ _ j hj2, hd]

/-! ### Concrete instances used by counterexamples and witnesses -/

/-- Swing state: margin 4, so 5 voters are needed to flip it. -/
def c1PA : State := ⟨"PA", 12, 8, 7⟩

/-- Election for the `relocate_voters` analysis: `PA` is won by the overall
winner, `NV` and `NH` by the loser with margin 3 each. -/
def c1Election : List State := [c1PA, ⟨"NV", 7, 10, 3⟩, ⟨"NH", 7, 10, 3⟩]

def c2A : State := ⟨"A", 10, 6, 6⟩

def c2B : State := ⟨"B", 5, 4, 2⟩

def c2C : State := ⟨"C", 5, 4, 2⟩

def c2D : State := ⟨"D", 5, 4, 2⟩

/-- Winner-state pool where minimizing summed margins and minimizing summed
margins-plus-one pick different subsets at threshold 6. -/
def c2ws : List State := [c2A, c2B, c2C, c2D]

def c5U : State := ⟨"U", 5, 2, 3⟩

def c5V : State := ⟨"V", 4, 2, 2⟩

def c8P : State := ⟨"P", 9, 4, 1⟩

def c8Q : State := ⟨"Q", 12, 3, 1⟩

/-! ### Claims -/

/-- Claim C1: the spec says that in every successful plan each swing state
receives exactly `margin + 1` voters and that a donation of `slack ≤ demand`
reduces the demand by the donated amount.  The source instead updates the
demand with `voters_needed % moved`.  On this input the run "succeeds" with
the swing state `PA` (margin 4, demand 5) receiving only 3 voters: donor `NV`
gives 2 and the demand becomes `5 % 2 = 1` instead of 3, then `NH` gives 1.
This contradicts the function's own docstring ("To win a swing state, you
must move (margin + 1) new voters into that state"). -/
theorem claim_c1_modulo_bug :
    relocate_voters c1Election [c1PA]
        = some (3, [(("NH", "PA"), 1), (("NV", "PA"), 2)], 7)
      ∧ received_by [(("NH", "PA"), 1), (("NV", "PA"), 2)] "PA" = 3
      ∧ get_margin c1PA + 1 = 5
      ∧ (3 : Int) ≠ 5 := by decide

/-- Claim C2 counterexample: `[c2A]` is a feasible subset (weight 6 ≥ 6) with
`margin + 1` total 5, strictly below the 6 of the subset the code returns, so
the returned subset does not minimize the sum of `margin + 1`. -/
theorem claim_c2_counterexample :
    List.Sublist [c2A] c2ws ∧ 6 ≤ sumEc [c2A]
      ∧ sumMP [c2A] < sumMP (brute_force_swing_states c2ws 6) := by decide

/-- Claim C2 (amended): among all subsets of `winner_states` whose summed
electoral weight reaches the threshold, `brute_force_swing_states` returns
one minimizing the summed `margin` (the code accumulates `get_margin()`, not
`margin + 1`); ties are broken arbitrarily. -/
theorem claim_c2_amended (ws : List State) (t : Int) (c : List State)
    (hsub : List.Sublist c ws) (hfeas : t ≤ sumEc c) :
    List.Sublist (brute_force_swing_states ws t) ws
      ∧ t ≤ sumEc (brute_force_swing_states ws t)
      ∧ sumMargin (brute_force_swing_states ws t) ≤ sumMargin c :=
  brute_force_minimizes ws t c hsub hfeas

theorem claim_c2_amended_witness :
    List.Sublist (brute_force_swing_states c2ws 6) c2ws
      ∧ 6 ≤ sumEc (brute_force_swing_states c2ws 6)
      ∧ sumMargin (brute_force_swing_states c2ws 6) ≤ sumMargin [c2A] :=
  claim_c2_amended c2ws 6 [c2A] (by decide) (by decide)

/-- Claim C3 counterexample: on `c2ws` with threshold 6 the brute force
returns a subset with `margin + 1` total 6, the knapsack complement one with
total 5; the two selectors do not agree on `total_voters_required`. -/
theorem claim_c3_counterexample :
    sumMP (brute_force_swing_states c2ws 6) = 6
      ∧ sumMP ((move_min_voters c2ws 6 []).1) = 5
      ∧ sumMP (brute_force_swing_states c2ws 6)
          ≠ sumMP ((move_min_voters c2ws 6 []).1) := by decide

/-- Claim C3 (amended): the two selectors optimize different objectives:
`move_min_voters` (fresh memo) minimizes the summed `margin + 1` over all
feasible subsets while `brute_force_swing_states` minimizes the summed
`margin`, so on duplicate-free pools with positive weights and an attainable
threshold the knapsack answer's `margin + 1` total is at most the brute-force
answer's, with strict inequality possible. -/
theorem claim_c3_amended (ws : List State) (needed : Int) (hnd : ws.Nodup)
    (hpos : ∀ s ∈ ws, 0 < get_ecvotes s) (hle : needed ≤ sumEc ws) :
    needed ≤ sumEc ((move_min_voters ws needed []).1)
      ∧ List.Sublist (brute_force_swing_states ws needed) ws
      ∧ needed ≤ sumEc (brute_force_swing_states ws needed)
      ∧ sumMP ((move_min_voters ws needed []).1)
          ≤ sumMP (brute_force_swing_states ws needed) := by
  have hmin := move_min_optimal ws needed hnd hpos hle
  have hbf := brute_force_minimizes ws needed ws (List.Sublist.refl ws) hle
  exact ⟨hmin.1, hbf.1, hbf.2.1, hmin.2 _ hbf.1.subperm hbf.2.1⟩

theorem claim_c3_amended_witness :
    6 ≤ sumEc ((move_min_voters c2ws 6 []).1)
      ∧ List.Sublist (brute_force_swing_states c2ws 6) c2ws
      ∧ 6 ≤ sumEc (brute_force_swing_states c2ws 6)
      ∧ sumMP ((move_min_voters c2ws 6 []).1)
          ≤ sumMP (brute_force_swing_states c2ws 6) :=
  claim_c3_amended c2ws 6 (by decide) (by decide) (by decide)

/-- Claim C4: with an initially empty memo, `move_max_voters` computes the
memo-free recursion `knapRec`; on positive weights and a nonnegative bound
its result is a subset (up to order) of the pool, keeps its summed electoral
weight within the bound, maximizes the summed `margin + 1` among all such
subsets, and at every decision point where including and excluding the
current state tie in value, the state is excluded. -/
theorem claim_c4_knapsack_optimal (ws : List State) (b : Int)
    (hpos : ∀ s ∈ ws, 0 < get_ecvotes s) (hb : 0 ≤ b) :
    (move_max_voters ws b []).1 = knapRec ws b
      ∧ List.Subperm ((move_max_voters ws b []).1) ws
      ∧ sumEc ((move_max_voters ws b []).1) ≤ b
      ∧ (∀ c, List.Subperm c ws → sumEc c ≤ b →
          sumMP c ≤ sumMP ((move_max_voters ws b []).1))
      ∧ (∀ (s : State) (rest : List State) (b₂ : Int), b₂ ≠ 0 →
          ¬ get_ecvotes s > b₂ →
          sumMP (knapRec rest (b₂ - get_ecvotes s)) + (get_margin s + 1)
            = sumMP (knapRec rest b₂) →
          knapRec (s :: rest) b₂ = knapRec rest b₂) := by
  have heq := move_max_empty_memo ws b
  rw [heq]
  refine ⟨rfl, knapRec_subperm ws b, knapRec_weight ws b hb,
    fun c hc hcb => knapRec_optimal ws b hb hpos c hc hcb, ?_⟩
  intro s rest b₂ hb₂ hec hval
  simp only [knapRec]
  rw [if_neg hb₂, if_neg hec, if_neg (by omega)]

theorem claim_c4_witness :
    (move_max_voters c2ws 6 []).1 = knapRec c2ws 6
      ∧ List.Subperm ((move_max_voters c2ws 6 []).1) c2ws
      ∧ sumEc ((move_max_voters c2ws 6 []).1) ≤ 6
      ∧ (∀ c, List.Subperm c c2ws → sumEc c ≤ 6 →
          sumMP c ≤ sumMP ((move_max_voters c2ws 6 []).1))
      ∧ (∀ (s : State) (rest : List State) (b₂ : Int), b₂ ≠ 0 →
          ¬ get_ecvotes s > b₂ →
          sumMP (knapRec rest (b₂ - get_ecvotes s)) + (get_margin s + 1)
            = sumMP (knapRec rest b₂) →
          knapRec (s :: rest) b₂ = knapRec rest b₂) :=
  claim_c4_knapsack_optimal c2ws 6 (by decide) (by decide)

/-- Claim C5 counterexample: with `ec_votes_needed = 6` exceeding the pool's
total weight 5, `move_min_voters` returns the full winner-state list, not the
empty list. -/
theorem claim_c5_counterexample :
    sumEc [c5U, c5V] < 6
      ∧ (move_min_voters [c5U, c5V] 6 []).1 = [c5U, c5V]
      ∧ [c5U, c5V] ≠ ([] : List State) := by decide

/-- Claim C5 (amended): when `ec_votes_needed` strictly exceeds the total
electoral weight (weights nonnegative), the bound passed to the selector is
negative, every state is skipped as too heavy, the kept set is empty, and
`move_min_voters` therefore returns the whole winner-state list. -/
theorem claim_c5_amended (ws : List State) (needed : Int)
    (hlt : sumEc ws < needed) (hpos : ∀ s ∈ ws, 0 ≤ get_ecvotes s) :
    (move_min_voters ws needed []).1 = ws := by
  have hneg : sumEc ws - needed < 0 := by omega
  rw [move_min_result, move_max_empty_memo, knapRec_neg ws _ hneg hpos]
  apply List.filter_eq_self.mpr
  intro a _
  simp

theorem claim_c5_amended_witness : (move_min_voters [c5U, c5V] 6 []).1 = [c5U, c5V] :=
  claim_c5_amended [c5U, c5V] 6 (by decide) (by decide)

/-- Claim C6: when every record's margin is at least 1, every donor margin
tracked by the run stays at least 1 to the very end (whether the run returns
a plan or aborts infeasible), and scanning a donor whose margin is exactly 1
leaves the run state untouched, so such a donor never sources a transfer. -/
theorem claim_c6_donor_margin_invariant (election swing : List State) (pride : List String)
    (h : ∀ s ∈ election, 1 ≤ get_margin s) :
    (∀ m ∈ (relocate_run election swing pride).l_margins, 1 ≤ m)
      ∧ (∀ (cur : State) (i : Nat) (is : List Nat) (needed : Int) (st : PlanSt),
          st.l_margins.getD i 0 = 1 →
          donor_loop pride cur (i :: is) needed st = donor_loop pride cur is needed st) := by
  have hrun : relocate_run election swing pride
      = relocate_aux pride swing 0 []
          ⟨0, [], election.filter (fun s => decide (s ∉ winner_states election)),
            (election.filter (fun s => decide (s ∉ winner_states election))).map get_margin⟩ :=
    rfl
  constructor
  · rw [hrun]
    apply relocate_aux_margins
    intro m hm
    rcases List.mem_map.mp hm with ⟨s, hs, rfl⟩
    exact h s (List.mem_of_mem_filter hs)
  · intro cur i is needed st hst
    exact donor_loop_skip pride cur i is needed st hst

theorem claim_c6_witness :
    (∀ m ∈ (relocate_run c1Election [c1PA] ["AL", "AZ", "CA", "TX"]).l_margins, 1 ≤ m)
      ∧ (∀ (cur : State) (i : Nat) (is : List Nat) (needed : Int) (st : PlanSt),
          st.l_margins.getD i 0 = 1 →
          donor_loop ["AL", "AZ", "CA", "TX"] cur (i :: is) needed st
            = donor_loop ["AL", "AZ", "CA", "TX"] cur is needed st) :=
  claim_c6_donor_margin_invariant c1Election [c1PA] ["AL", "AZ", "CA", "TX"] (by decide)

/-- Claim C7: a protected name never appears as the source of any transfer in
the run's mapping, and a donor whose name is protected is never mutated: its
record in the final donor list is exactly its record in the initial one, no
matter how much slack it has. -/
theorem claim_c7_protected_states (election swing : List State) (pride : List String)
    (j : Nat)
    (hj : ((election.filter (fun s => decide (s ∉ winner_states election))).getD j
        dState).name ∈ pride) :
    (∀ e ∈ (relocate_run election swing pride).flip_map, e.1.1 ∉ pride)
      ∧ (relocate_run election swing pride).losing.getD j dState
          = (election.filter (fun s => decide (s ∉ winner_states election))).getD j dState := by
  have hrun : relocate_run election swing pride
      = relocate_aux pride swing 0 []
          ⟨0, [], election.filter (fun s => decide (s ∉ winner_states election)),
            (election.filter (fun s => decide (s ∉ winner_states election))).map get_margin⟩ :=
    rfl
  rw [hrun]
  constructor
  · apply relocate_aux_sources
    intro e he
    cases he
  · exact relocate_aux_protected pride swing 0 [] _ j hj

/-- Election for the C7 witness: `TX` is a protected loser-held donor with
ample slack (margin 9). -/
def c7Election : List State := [⟨"PA", 10, 7, 5⟩, ⟨"TX", 2, 11, 2⟩, ⟨"NV", 2, 11, 2⟩]

theorem claim_c7_witness :
    (∀ e ∈ (relocate_run c7Election [⟨"PA", 10, 7, 5⟩] ["AL", "AZ", "CA", "TX"]).flip_map,
        e.1.1 ∉ ["AL", "AZ", "CA", "TX"])
      ∧ (relocate_run c7Election [⟨"PA", 10, 7, 5⟩] ["AL", "AZ", "CA", "TX"]).losing.getD 0
            dState
          = (c7Election.filter
              (fun s => decide (s ∉ winner_states c7Election))).getD 0 dState :=
  claim_c7_protected_states c7Election [⟨"PA", 10, 7, 5⟩] ["AL", "AZ", "CA", "TX"] 0
    (by decide)

/-- Claim C8 counterexample: solving the one-state instance `[P]` at bound 1
leaves `((1, 1) ↦ [P])` in the process-wide memo; a later, unrelated instance
`[Q]` at the same length and bound then returns the stale `[P]` instead of
`[Q]`, so equal inputs do not give equal outputs across call histories. -/
theorem claim_c8_counterexample :
    (move_max_voters [c8Q] 1 ((move_max_voters [c8P] 1 []).2)).1 = [c8P]
      ∧ (move_max_voters [c8Q] 1 []).1 = [c8Q]
      ∧ (move_max_voters [c8Q] 1 ((move_max_voters [c8P] 1 []).2)).1
          ≠ (move_max_voters [c8Q] 1 []).1 := by decide

/-- Claim C8 (amended): `move_max_voters` is deterministic given identical
inputs only per memo state; a call whose memo starts empty is the pure
function `knapRec` of its inputs, so runs that reset the memo between
instances agree, while the shared process-wide memo can leak an unrelated
instance's solution with coincidentally equal length and bound. -/
theorem claim_c8_amended (ws : List State) (b : Int) :
    (move_max_voters ws b []).1 = knapRec ws b :=
  move_max_empty_memo ws b

/-- Claim C9 counterexample: on the empty record list `election_winner`
returns the pair `("rep", "dem")`; no failure occurs. -/
theorem claim_c9_counterexample : election_winner [] = ("rep", "dem") := rfl

/-- Claim C9 (amended): `election_winner` is total: on every record list,
including the empty one, it returns one of the two winner/loser pairs, and on
the empty list specifically `("rep", "dem")` (the 0 > 0 comparison fails);
there is no `DataError` path in the code. -/
theorem claim_c9_amended :
    (∀ election : List State,
        election_winner election = ("dem", "rep")
          ∨ election_winner election = ("rep", "dem"))
      ∧ election_winner [] = ("rep", "dem") := by
  constructor
  · intro election
    unfold election_winner
    dsimp only
    split
    · exact Or.inl rfl
    · exact Or.inr rfl
  · rfl

/-- The tally loop of `election_winner`, characterized: starting from
`(a, b)` it adds the electoral votes of the locally-dem-won states to the
first component and those of all remaining states to the second. -/
theorem election_winner_fold (election : List State) :
    ∀ (a b : Int),
      election.foldl
        (fun (dr : Int × Int) s =>
          if get_winner s = "dem" then (dr.1 + get_ecvotes s, dr.2)
          else (dr.1, dr.2 + get_ecvotes s)) (a, b)
      = (a + sumEc (election.filter (fun s => decide (get_winner s = "dem"))),
         b + sumEc (election.filter (fun s => decide (¬ get_winner s = "dem")))) := by
  induction election with
  | nil =>
    intro a b
    simp [sumEc]
  | cons s rest ih =>
    intro a b
    simp only [List.foldl_cons]
    by_cases h : get_winner s = "dem"
    · rw [if_pos h, ih]
      rw [List.filter_cons_of_pos (by simp [h]), List.filter_cons_of_neg (by simp [h]),
        sumEc_cons, Prod.mk.injEq]
      constructor <;> ring
    · rw [if_neg h, ih]
      rw [List.filter_cons_of_neg (by simp [h]), List.filter_cons_of_pos (by simp [h]),
        sumEc_cons, Prod.mk.injEq]
      constructor <;> ring

/-- `election_winner` decided by the two filtered electoral-vote sums. -/
theorem election_winner_eq (election : List State) :
    election_winner election
      = if sumEc (election.filter (fun s => decide (get_winner s = "dem")))
            > sumEc (election.filter (fun s => decide (¬ get_winner s = "dem")))
        then ("dem", "rep") else ("rep", "dem") := by
  unfold election_winner
  rw [election_winner_fold election 0 0]
  simp

/-- Claim C10: whenever the summed electoral weight of the locally-dem-won
states is at most that of the remaining states, including an exact tie,
`election_winner` returns `("rep", "dem")`: only a strictly larger dem tally
selects dem, so ties always declare rep the overall winner. -/
theorem claim_c10_tie_breaks_rep (election : List State)
    (h : sumEc (election.filter (fun s => decide (get_winner s = "dem")))
        ≤ sumEc (election.filter (fun s => decide (¬ get_winner s = "dem")))) :
    election_winner election = ("rep", "dem") := by
  rw [election_winner_eq]
  rw [if_neg (by omega)]

theorem claim_c10_witness :
    election_winner [⟨"D", 3, 1, 4⟩, ⟨"R", 1, 3, 4⟩] = ("rep", "dem") :=
  claim_c10_tie_breaks_rep [⟨"D", 3, 1, 4⟩, ⟨"R", 1, 3, 4⟩] (by decide)
